import Mathlib

/-!
Verification development for the histogram-accumulation kernel of
`shared/ebm_native/BinSumsBoosting.cpp` (interpret_ml).

Embedding conventions:

* `FloatFast` values (gradients, hessians, weights) are modelled as exact
  rationals `ℚ`; floating-point rounding is outside the model, every
  arithmetic statement is about the accumulation algorithm itself.
* Flat C arrays (`pCountOccurrences`, `pWeight`, the interleaved
  gradient/hessian array, the packed-word input stream) are modelled as
  total functions from `Nat`; pointer arithmetic becomes explicit index
  arithmetic with the same strides the source uses.
* Pointer-terminated `do { } while` loops are translated to counted
  recursion; the iteration counts are derived from the same pointer
  arithmetic the source computes (`pGradientAndHessiansExit`,
  `pGradientAndHessiansTrueEnd`), and the translations coincide with the
  source under its own asserted preconditions (`0 < cSamples`,
  `1 <= cItemsPerBitPack`).
* `StorageDataType` is a 64-bit unsigned word; packed words are `Nat`
  values and the source's `&`/`>>` become `&&&`/`>>>` on `Nat`.
-/

namespace EbmBinSums

/-- GradientPair.hpp: per-score accumulator holding the gradient sum and
(for classification) the hessian sum. -/
structure GradientPair where
  m_sumGradients : ℚ
  m_sumHessians : ℚ

/-- Bin.hpp: per-tensor-cell accumulator of sample count, total weight and
one `GradientPair` per score.  The gradient pairs are modelled as a total
function from the score index. -/
structure Bin where
  countSamples : Nat
  weight : ℚ
  gradientPairs : Nat → GradientPair

/-- The run-time data a concrete `BinSumsBoosting*::Func` instantiation
reads: the flags and counts resolved by `GET_COUNT_CLASSES` /
`GET_ITEMS_PER_BIT_PACK`, the inner-bag arrays, the interleaved
gradient/hessian array and the packed per-sample bin-index words. -/
structure BoostParams where
  bClassification : Bool
  cScores : Nat
  cSamples : Nat
  occ : Nat → Nat
  wts : Nat → ℚ
  gh : Nat → ℚ
  cItemsPerBitPack : Nat
  cBitsPerItemMax : Nat
  inputData : Nat → Nat

/-- `k_cBitsForStorageType`: bit width of `StorageDataType` (uint64). -/
def k_cBitsForStorageType : Nat := 64

/-- `maskBits = (~StorageDataType{0}) >> (k_cBitsForStorageType - cBitsPerItemMax)`
(BinSumsBoosting.cpp line 224). -/
def maskBitsOf (cBitsPerItemMax : Nat) : Nat :=
  (2 ^ k_cBitsForStorageType - 1) >>> (k_cBitsForStorageType - cBitsPerItemMax)

/-- Stride of the interleaved gradient/hessian array per score:
`bClassification ? 2 : 1` (lines 61, 114, 242, 317). -/
def ghStride (P : BoostParams) : Nat := if P.bClassification then 2 else 1

/-- Index of the gradient for sample `i`, score `s` in the flat interleaved
array: the source walks `pGradientAndHessian` forward by `ghStride` per
score and `ghStride * cScores` per sample, so the gradient of `(i, s)`
sits at offset `ghStride * (cScores * i + s)` (hessian at the next slot). -/
def gradPos (P : BoostParams) (i s : Nat) : Nat :=
  ghStride P * (P.cScores * i + s)

/-- Body of the per-score loop (lines 99-119 / 302-322): add
`gradient * weight` to `m_sumGradients` and, for classification, the
immediately following hessian times weight to `m_sumHessians`. -/
def accumPair (P : BoostParams) (i s : Nat) (p : GradientPair) : GradientPair :=
  { m_sumGradients := p.m_sumGradients + P.gh (gradPos P i s) * P.wts i
    m_sumHessians :=
      if P.bClassification then p.m_sumHessians + P.gh (gradPos P i s + 1) * P.wts i
      else p.m_sumHessians }

/-- The per-sample score loop, a `do { } while(iScore < cScores)`: run the
body at `s`, then continue at `s + 1` while `s + 1 < cScores`. -/
def pairsGo (P : BoostParams) (i : Nat) (s : Nat) (pairs : Nat → GradientPair) :
    Nat → GradientPair :=
  if s + 1 < P.cScores then
    pairsGo P i (s + 1) (Function.update pairs s (accumPair P i s (pairs s)))
  else
    Function.update pairs s (accumPair P i s (pairs s))
termination_by P.cScores - s
decreasing_by omega

/-- One sample's contribution to a bin (lines 77-119 / 278-322): add
`occurrence[i]` to `countSamples`, `weight[i]` to `weight`, and run the
score loop from `iScore = 0`. -/
def updateBinSample (P : BoostParams) (i : Nat) (b : Bin) : Bin :=
  { countSamples := b.countSamples + P.occ i
    weight := b.weight + P.wts i
    gradientPairs := pairsGo P i 0 b.gradientPairs }

/-- Sample loop of `BinSumsBoostingZeroDimensions<cCompilerClasses>::Func`
(lines 64-127): the `do { } while(pGradientAndHessiansEnd != pGradientAndHessian)`
loop, counted by the remaining samples with `i` the current sample index. -/
def zeroDimGo (P : BoostParams) : Nat → Nat → Bin → Bin
  | 0, _, b => b
  | n + 1, i, b => zeroDimGo P n (i + 1) (updateBinSample P i b)

/-- `BinSumsBoostingZeroDimensions<cCompilerClasses>::Func` applied to the
single bin: iterate every sample index in `[0, cSamples)`. -/
def zeroDimLoop (P : BoostParams) (b : Bin) : Bin :=
  zeroDimGo P P.cSamples 0 b

/-- Inner extraction loop of `BinSumsBoostingInternal::Func`
(lines 271-334): extract the low field of the current word with `maskBits`,
update the addressed bin with the current sample, shift the word right by
`cBitsPerItemMax`, and decrement `cItemsRemaining`. -/
def procGroup (P : BoostParams) : Nat → Nat → Nat → (Nat → Bin) → Nat → Bin
  | _word, 0, _i, bins => bins
  | word, cnt + 1, i, bins =>
    let iTensorBin := word &&& maskBitsOf P.cBitsPerItemMax
    procGroup P (word >>> P.cBitsPerItemMax) cnt (i + 1)
      (Function.update bins iTensorBin (updateBinSample P i (bins iTensorBin)))

/-- Sample count of the final, possibly partial word: the source exits the
main loop at `pGradientAndHessiansExit = pGradientAndHessiansTrueEnd -
(stride) * cScores * ((cSamples - 1) % cItemsPerBitPack + 1)` (line 248),
so the tail pass handles `(cSamples - 1) % cItemsPerBitPack + 1` samples. -/
def tailCount (P : BoostParams) : Nat :=
  (P.cSamples - 1) % P.cItemsPerBitPack + 1

/-- Number of full-word passes of the main loop before the tail pass:
the main loop consumes `cItemsPerBitPack` samples per iteration and stops
with `tailCount` samples left, hence `(cSamples - 1) / cItemsPerBitPack`
iterations. -/
def fullGroups (P : BoostParams) : Nat :=
  (P.cSamples - 1) / P.cItemsPerBitPack

/-- Outer word loop of `BinSumsBoostingInternal::Func` (lines 252-349):
`g` counts the remaining full-word passes; each pass loads one word from
`pInputData` and runs the inner loop for `cItemsPerBitPack` items; at
`g = 0` the `one_last_loop` tail pass runs for `tailCount` items. -/
def procWords (P : BoostParams) : Nat → Nat → Nat → (Nat → Bin) → Nat → Bin
  | 0, iWord, i, bins => procGroup P (P.inputData iWord) (tailCount P) i bins
  | g + 1, iWord, i, bins =>
    procWords P g (iWord + 1) (i + P.cItemsPerBitPack)
      (procGroup P (P.inputData iWord) P.cItemsPerBitPack i bins)

/-- `BinSumsBoostingInternal<cCompilerClasses, compilerBitPack>::Func` with
its parameters already resolved into `P`: run the full-word passes and the
tail pass over the bin buffer. -/
def internalLoop (P : BoostParams) (bins : Nat → Bin) : Nat → Bin :=
  procWords P (fullGroups P) 0 0 bins

/-- Decode skeleton of the inner extraction loop (lines 273, 330): the list
of bin indices the loop extracts from one word, low field first. -/
def decodeGroup (cBitsPerItemMax : Nat) : Nat → Nat → List Nat
  | _word, 0 => []
  | word, cnt + 1 =>
    (word &&& maskBitsOf cBitsPerItemMax) ::
      decodeGroup cBitsPerItemMax (word >>> cBitsPerItemMax) cnt

/-- Decode skeleton of the outer word loop: the bin indices decoded by the
remaining `g` full-word passes followed by the tail pass. -/
def decodedWords (P : BoostParams) : Nat → Nat → List Nat
  | 0, iWord => decodeGroup P.cBitsPerItemMax (P.inputData iWord) (tailCount P)
  | g + 1, iWord =>
    decodeGroup P.cBitsPerItemMax (P.inputData iWord) P.cItemsPerBitPack ++
      decodedWords P g (iWord + 1)

/-- All bin indices `BinSumsBoostingInternal::Func` decodes, in order. -/
def decodedBins (P : BoostParams) : List Nat :=
  decodedWords P (fullGroups P) 0

/-- Sequential per-sample accumulation along a list of decoded bin
indices, starting at sample `i`; the common shape both accumulator loops
reduce to. -/
def applySamples (P : BoostParams) : List Nat → Nat → (Nat → Bin) → Nat → Bin
  | [], _, bins => bins
  | j :: rest, i, bins =>
    applySamples P rest (i + 1)
      (Function.update bins j (updateBinSample P i (bins j)))

theorem updateBinSample_countSamples (P : BoostParams) (i : Nat) (b : Bin) :
    (updateBinSample P i b).countSamples = b.countSamples + P.occ i := rfl

theorem updateBinSample_weight (P : BoostParams) (i : Nat) (b : Bin) :
    (updateBinSample P i b).weight = b.weight + P.wts i := rfl

theorem pairsGo_apply (P : BoostParams) (i : Nat) :
    ∀ n s pairs t, P.cScores - s ≤ n →
      pairsGo P i s pairs t =
        if s ≤ t ∧ (t < P.cScores ∨ t = s) then accumPair P i t (pairs t)
        else pairs t := by
  intro n
  induction n with
  | zero =>
    intro s pairs t hn
    rw [pairsGo]
    have hs : ¬(s + 1 < P.cScores) := by omega
    rw [if_neg hs, Function.update_apply]
    rcases eq_or_ne t s with rfl | hts
    · simp
    · have hc : ¬(s ≤ t ∧ (t < P.cScores ∨ t = s)) := by omega
      rw [if_neg hts, if_neg hc]
  | succ n ih =>
    intro s pairs t hn
    rw [pairsGo]
    by_cases h : s + 1 < P.cScores
    · rw [if_pos h, ih (s + 1) _ t (by omega)]
      rcases eq_or_ne t s with rfl | hts
      · have hc1 : ¬(t + 1 ≤ t ∧ (t < P.cScores ∨ t = t + 1)) := by omega
        have hc2 : t ≤ t ∧ (t < P.cScores ∨ t = t) := by omega
        rw [if_neg hc1, if_pos hc2, Function.update_same]
      · simp only [Function.update_apply, if_neg hts]
        by_cases hA : s + 1 ≤ t ∧ (t < P.cScores ∨ t = s + 1)
        · have hB : s ≤ t ∧ (t < P.cScores ∨ t = s) := by omega
          rw [if_pos hA, if_pos hB]
        · have hB : ¬(s ≤ t ∧ (t < P.cScores ∨ t = s)) := by omega
          rw [if_neg hA, if_neg hB]
    · rw [if_neg h, Function.update_apply]
      rcases eq_or_ne t s with rfl | hts
      · simp
      · have hc : ¬(s ≤ t ∧ (t < P.cScores ∨ t = s)) := by omega
        rw [if_neg hts, if_neg hc]

theorem updateBinSample_pairs (P : BoostParams) (i : Nat) (b : Bin) (t : Nat) :
    (updateBinSample P i b).gradientPairs t =
      if t < P.cScores ∨ t = 0 then accumPair P i t (b.gradientPairs t)
      else b.gradientPairs t := by
  have h := pairsGo_apply P i P.cScores 0 b.gradientPairs t (by omega)
  simpa [updateBinSample] using h

theorem decodeGroup_length (B : Nat) :
    ∀ word cnt, (decodeGroup B word cnt).length = cnt := by
  intro word cnt
  induction cnt generalizing word with
  | zero => rfl
  | succ n ih => simp [decodeGroup, ih]

theorem procGroup_eq_applySamples (P : BoostParams) :
    ∀ cnt word i bins,
      procGroup P word cnt i bins =
        applySamples P (decodeGroup P.cBitsPerItemMax word cnt) i bins := by
  intro cnt
  induction cnt with
  | zero => intro word i bins; rfl
  | succ n ih =>
    intro word i bins
    rw [procGroup, decodeGroup, applySamples, ih]

theorem applySamples_append (P : BoostParams) :
    ∀ l1 l2 i bins,
      applySamples P (l1 ++ l2) i bins =
        applySamples P l2 (i + l1.length) (applySamples P l1 i bins) := by
  intro l1
  induction l1 with
  | nil => intro l2 i bins; simp [applySamples]
  | cons j rest ih =>
    intro l2 i bins
    show applySamples P (rest ++ l2) (i + 1)
        (Function.update bins j (updateBinSample P i (bins j))) =
      applySamples P l2 (i + (rest.length + 1))
        (applySamples P rest (i + 1) (Function.update bins j (updateBinSample P i (bins j))))
    rw [ih]
    have h : i + 1 + rest.length = i + (rest.length + 1) := by omega
    rw [h]

theorem procWords_eq_applySamples (P : BoostParams) :
    ∀ g iWord i bins,
      procWords P g iWord i bins = applySamples P (decodedWords P g iWord) i bins := by
  intro g
  induction g with
  | zero => intro iWord i bins; exact procGroup_eq_applySamples P _ _ _ _
  | succ n ih =>
    intro iWord i bins
    rw [procWords, decodedWords, applySamples_append, ih, procGroup_eq_applySamples,
      decodeGroup_length]

theorem internalLoop_eq_applySamples (P : BoostParams) (bins : Nat → Bin) :
    internalLoop P bins = applySamples P (decodedBins P) 0 bins :=
  procWords_eq_applySamples P (fullGroups P) 0 0 bins

theorem decodedWords_length (P : BoostParams) :
    ∀ g iWord, (decodedWords P g iWord).length = g * P.cItemsPerBitPack + tailCount P := by
  intro g
  induction g with
  | zero => intro iWord; simp [decodedWords, decodeGroup_length]
  | succ n ih =>
    intro iWord
    simp only [decodedWords, List.length_append, decodeGroup_length, ih]
    ring

theorem groups_total (P : BoostParams) (h1 : 1 ≤ P.cSamples)
    (h2 : 1 ≤ P.cItemsPerBitPack) :
    fullGroups P * P.cItemsPerBitPack + tailCount P = P.cSamples := by
  have h := Nat.div_add_mod (P.cSamples - 1) P.cItemsPerBitPack
  rw [fullGroups, tailCount, Nat.mul_comm]
  omega

theorem decodedBins_length (P : BoostParams) (h1 : 1 ≤ P.cSamples)
    (h2 : 1 ≤ P.cItemsPerBitPack) :
    (decodedBins P).length = P.cSamples := by
  rw [decodedBins, decodedWords_length, groups_total P h1 h2]

theorem pred_mul_div (a b : Nat) (ha : 0 < a) (hb : 0 < b) :
    (a * b - 1) / a = b - 1 := by
  rcases Nat.exists_eq_add_of_le hb with ⟨z, hz⟩
  subst hz
  have hmul : a * (1 + z) = a + a * z := by ring
  have h1 : a * (1 + z) - 1 = (a - 1) + a * z := by omega
  rw [h1, Nat.add_mul_div_left _ _ ha, Nat.div_eq_of_lt (by omega)]
  omega

theorem maskBitsOf_eq (bits : Nat) (h : bits ≤ k_cBitsForStorageType) :
    maskBitsOf bits = 2 ^ bits - 1 := by
  have hsplit : (2 : Nat) ^ k_cBitsForStorageType =
      2 ^ (k_cBitsForStorageType - bits) * 2 ^ bits := by
    rw [← pow_add]
    congr 1
    omega
  have h2 : (0 : Nat) < 2 ^ (k_cBitsForStorageType - bits) :=
    pow_pos (by norm_num) _
  have h3 : (0 : Nat) < 2 ^ bits := pow_pos (by norm_num) _
  rw [maskBitsOf, Nat.shiftRight_eq_div_pow, hsplit, pred_mul_div _ _ h2 h3]

theorem decodeGroup_mem (B : Nat) :
    ∀ word cnt j, j ∈ decodeGroup B word cnt → j ≤ maskBitsOf B := by
  intro word cnt
  induction cnt generalizing word with
  | zero => intro j hj; simp [decodeGroup] at hj
  | succ n ih =>
    intro j hj
    rw [decodeGroup, List.mem_cons] at hj
    rcases hj with rfl | hj
    · exact Nat.and_le_right
    · exact ih _ j hj

theorem decodedWords_mem (P : BoostParams) :
    ∀ g iWord j, j ∈ decodedWords P g iWord → j ≤ maskBitsOf P.cBitsPerItemMax := by
  intro g
  induction g with
  | zero => intro iWord j hj; exact decodeGroup_mem _ _ _ j hj
  | succ n ih =>
    intro iWord j hj
    rw [decodedWords, List.mem_append] at hj
    rcases hj with hj | hj
    · exact decodeGroup_mem _ _ _ j hj
    · exact ih _ j hj

theorem decodedBins_mem (P : BoostParams) :
    ∀ j ∈ decodedBins P, j ≤ maskBitsOf P.cBitsPerItemMax :=
  fun j hj => decodedWords_mem P _ 0 j hj

theorem sum_shift {M : Type} [AddCommMonoid M] (c : Nat → M) :
    ∀ n i, (∑ t ∈ Finset.range (n + 1), c (i + t)) =
      c i + ∑ t ∈ Finset.range n, c (i + 1 + t) := by
  intro n
  induction n with
  | zero => intro i; simp
  | succ n ih =>
    intro i
    rw [Finset.sum_range_succ, ih i, Finset.sum_range_succ]
    have h : i + (n + 1) = i + 1 + n := by omega
    rw [h, add_assoc]

theorem sum_applySamples {M : Type} [AddCommMonoid M] (P : BoostParams) (cBins : Nat)
    (μ : Bin → M) (c : Nat → M)
    (hμ : ∀ i b, μ (updateBinSample P i b) = μ b + c i) :
    ∀ l i bins, (∀ j ∈ l, j < cBins) →
      (∑ x ∈ Finset.range cBins, μ (applySamples P l i bins x)) =
        (∑ x ∈ Finset.range cBins, μ (bins x)) +
          ∑ t ∈ Finset.range l.length, c (i + t) := by
  intro l
  induction l with
  | nil => intro i bins _; simp [applySamples]
  | cons j rest ih =>
    intro i bins hl
    have hj : j ∈ Finset.range cBins :=
      Finset.mem_range.mpr (hl j (List.mem_cons_self j rest))
    have hrest : ∀ x ∈ rest, x < cBins := fun x hx => hl x (List.mem_cons_of_mem j hx)
    show (∑ x ∈ Finset.range cBins,
        μ (applySamples P rest (i + 1)
          (Function.update bins j (updateBinSample P i (bins j))) x)) = _
    rw [ih (i + 1) _ hrest]
    have hupd : ∀ x, μ (Function.update bins j (updateBinSample P i (bins j)) x) =
        Function.update (fun y => μ (bins y)) j (μ (updateBinSample P i (bins j))) x := by
      intro x
      rcases eq_or_ne x j with rfl | hx
      · simp
      · simp [Function.update_apply, hx]
    rw [Finset.sum_congr rfl (fun x _ => hupd x), Finset.sum_update_of_mem hj, hμ]
    have hsum : (∑ x ∈ Finset.range cBins, μ (bins x)) =
        μ (bins j) + ∑ x ∈ Finset.range cBins \ {j}, μ (bins x) :=
      Finset.sum_eq_add_sum_diff_singleton hj _
    rw [List.length_cons, sum_shift c rest.length i, hsum]
    abel

theorem zeroDimGo_measure {M : Type} [AddCommMonoid M] (P : BoostParams)
    (μ : Bin → M) (c : Nat → M)
    (hμ : ∀ i b, μ (updateBinSample P i b) = μ b + c i) :
    ∀ n i b, μ (zeroDimGo P n i b) = μ b + ∑ t ∈ Finset.range n, c (i + t) := by
  intro n
  induction n with
  | zero => intro i b; simp [zeroDimGo]
  | succ n ih =>
    intro i b
    rw [zeroDimGo, ih, hμ, sum_shift c n i]
    abel

/-- A zeroed bin, as the caller allocates the buffer before a pass. -/
def zeroBin : Bin :=
  { countSamples := 0, weight := 0, gradientPairs := fun _ => ⟨0, 0⟩ }

/-- C3: for every call on a zeroed bin buffer, after one complete pass over
one inner bag, the sum of `bin.countSamples` over all bins equals the sum of
`innerBag.countOccurrences` over all samples, in both the zero-dimension
path and the indexed path. -/
theorem C3_countSamples_total (P : BoostParams) (cBins : Nat) (bins : Nat → Bin)
    (b : Bin) (hS : 1 ≤ P.cSamples) (hI : 1 ≤ P.cItemsPerBitPack)
    (hbins : ∀ j, j < cBins → (bins j).countSamples = 0)
    (hb : b.countSamples = 0)
    (hrange : ∀ j ∈ decodedBins P, j < cBins) :
    (∑ x ∈ Finset.range cBins, (internalLoop P bins x).countSamples) =
        (∑ i ∈ Finset.range P.cSamples, P.occ i) ∧
      (zeroDimLoop P b).countSamples = ∑ i ∈ Finset.range P.cSamples, P.occ i := by
  constructor
  · rw [internalLoop_eq_applySamples,
      sum_applySamples P cBins (fun bb => bb.countSamples) P.occ
        (fun i bb => updateBinSample_countSamples P i bb) _ 0 bins hrange,
      decodedBins_length P hS hI]
    have hz : (∑ x ∈ Finset.range cBins, (bins x).countSamples) = 0 :=
      Finset.sum_eq_zero fun x hx => hbins x (Finset.mem_range.mp hx)
    rw [hz, zero_add]
    exact Finset.sum_congr rfl fun t _ => by rw [Nat.zero_add]
  · rw [zeroDimLoop,
      zeroDimGo_measure P (fun bb => bb.countSamples) P.occ
        (fun i bb => updateBinSample_countSamples P i bb) P.cSamples 0 b,
      hb, zero_add]
    exact Finset.sum_congr rfl fun t _ => by rw [Nat.zero_add]

/-- Concrete example call used by the witnesses: binary-style classification
with 2 scores, 5 samples, pack width 4 with 2-bit fields, a 4-bin buffer;
the packed words decode to bin indices [0, 3, 2, 1, 2]. -/
def exP : BoostParams :=
  { bClassification := true
    cScores := 2
    cSamples := 5
    occ := fun i => i + 1
    wts := fun i => (i : ℚ) + 1
    gh := fun p => (p : ℚ)
    cItemsPerBitPack := 4
    cBitsPerItemMax := 2
    inputData := fun w => if w = 0 then 0x6C else 0x2 }

/-- Witness for C3: the theorem applied at the concrete call `exP` on a
zeroed 4-bin buffer, every hypothesis discharged by evaluation. -/
theorem C3_witness :
    (1 ≤ exP.cSamples) ∧
      ((∑ x ∈ Finset.range 4, (internalLoop exP (fun _ => zeroBin) x).countSamples) =
          (∑ i ∈ Finset.range exP.cSamples, exP.occ i) ∧
        (zeroDimLoop exP zeroBin).countSamples =
          ∑ i ∈ Finset.range exP.cSamples, exP.occ i) :=
  ⟨by decide,
    C3_countSamples_total exP 4 (fun _ => zeroBin) zeroBin (by decide) (by decide)
      (fun _ _ => rfl) rfl (by decide)⟩

theorem updateBinSample_sumGradients (P : BoostParams) (s : Nat) (hs : s < P.cScores)
    (i : Nat) (b : Bin) :
    ((updateBinSample P i b).gradientPairs s).m_sumGradients =
      (b.gradientPairs s).m_sumGradients + P.gh (gradPos P i s) * P.wts i := by
  rw [updateBinSample_pairs, if_pos (Or.inl hs)]
  rfl

theorem updateBinSample_sumHessians (P : BoostParams) (s : Nat) (hs : s < P.cScores)
    (hc : P.bClassification = true) (i : Nat) (b : Bin) :
    ((updateBinSample P i b).gradientPairs s).m_sumHessians =
      (b.gradientPairs s).m_sumHessians + P.gh (gradPos P i s + 1) * P.wts i := by
  rw [updateBinSample_pairs, if_pos (Or.inl hs)]
  simp [accumPair, hc]

/-- C1: for every call on a zeroed bin buffer (zero-dimension or indexed)
and every score index `s`, the final sum of
`bin.gradientPairs[s].sumGradients` over all bins equals the weighted sum
over all samples of `gradient(i, s) * weight[i]`, reading the gradient at
the interleaved position of `(i, s)`; for classification the same holds for
`sumHessians`, reading the hessian at the position immediately following
the gradient. -/
theorem C1_gradient_totals (P : BoostParams) (cBins : Nat) (bins : Nat → Bin)
    (b : Bin) (s : Nat) (hs : s < P.cScores)
    (hS : 1 ≤ P.cSamples) (hI : 1 ≤ P.cItemsPerBitPack)
    (hbins : ∀ j, j < cBins → (bins j).gradientPairs s = ⟨0, 0⟩)
    (hb : b.gradientPairs s = ⟨0, 0⟩)
    (hrange : ∀ j ∈ decodedBins P, j < cBins) :
    ((∑ x ∈ Finset.range cBins, ((internalLoop P bins x).gradientPairs s).m_sumGradients) =
        ∑ i ∈ Finset.range P.cSamples, P.gh (gradPos P i s) * P.wts i) ∧
      (((zeroDimLoop P b).gradientPairs s).m_sumGradients =
        ∑ i ∈ Finset.range P.cSamples, P.gh (gradPos P i s) * P.wts i) ∧
      (P.bClassification = true →
        ((∑ x ∈ Finset.range cBins,
            ((internalLoop P bins x).gradientPairs s).m_sumHessians) =
          ∑ i ∈ Finset.range P.cSamples, P.gh (gradPos P i s + 1) * P.wts i) ∧
        ((zeroDimLoop P b).gradientPairs s).m_sumHessians =
          ∑ i ∈ Finset.range P.cSamples, P.gh (gradPos P i s + 1) * P.wts i) := by
  refine ⟨?_, ?_, fun hc => ⟨?_, ?_⟩⟩
  · rw [internalLoop_eq_applySamples,
      sum_applySamples P cBins (fun bb => (bb.gradientPairs s).m_sumGradients)
        (fun i => P.gh (gradPos P i s) * P.wts i)
        (fun i bb => updateBinSample_sumGradients P s hs i bb) _ 0 bins hrange,
      decodedBins_length P hS hI]
    have hz : (∑ x ∈ Finset.range cBins, ((bins x).gradientPairs s).m_sumGradients) = 0 :=
      Finset.sum_eq_zero fun x hx => by rw [hbins x (Finset.mem_range.mp hx)]
    rw [hz, zero_add]
    exact Finset.sum_congr rfl fun t _ => by rw [Nat.zero_add]
  · rw [zeroDimLoop,
      zeroDimGo_measure P (fun bb => (bb.gradientPairs s).m_sumGradients)
        (fun i => P.gh (gradPos P i s) * P.wts i)
        (fun i bb => updateBinSample_sumGradients P s hs i bb) P.cSamples 0 b,
      hb]
    rw [show (GradientPair.mk 0 0).m_sumGradients = 0 from rfl, zero_add]
    exact Finset.sum_congr rfl fun t _ => by rw [Nat.zero_add]
  · rw [internalLoop_eq_applySamples,
      sum_applySamples P cBins (fun bb => (bb.gradientPairs s).m_sumHessians)
        (fun i => P.gh (gradPos P i s + 1) * P.wts i)
        (fun i bb => updateBinSample_sumHessians P s hs hc i bb) _ 0 bins hrange,
      decodedBins_length P hS hI]
    have hz : (∑ x ∈ Finset.range cBins, ((bins x).gradientPairs s).m_sumHessians) = 0 :=
      Finset.sum_eq_zero fun x hx => by rw [hbins x (Finset.mem_range.mp hx)]
    rw [hz, zero_add]
    exact Finset.sum_congr rfl fun t _ => by rw [Nat.zero_add]
  · rw [zeroDimLoop,
      zeroDimGo_measure P (fun bb => (bb.gradientPairs s).m_sumHessians)
        (fun i => P.gh (gradPos P i s + 1) * P.wts i)
        (fun i bb => updateBinSample_sumHessians P s hs hc i bb) P.cSamples 0 b,
      hb]
    rw [show (GradientPair.mk 0 0).m_sumHessians = 0 from rfl, zero_add]
    exact Finset.sum_congr rfl fun t _ => by rw [Nat.zero_add]

/-- Witness for C1: the theorem applied at the concrete call `exP`, score
index 0, on a zeroed 4-bin buffer. -/
theorem C1_witness :
    (0 < exP.cScores) ∧
      (((∑ x ∈ Finset.range 4,
            ((internalLoop exP (fun _ => zeroBin) x).gradientPairs 0).m_sumGradients) =
          ∑ i ∈ Finset.range exP.cSamples, exP.gh (gradPos exP i 0) * exP.wts i) ∧
        (((zeroDimLoop exP zeroBin).gradientPairs 0).m_sumGradients =
          ∑ i ∈ Finset.range exP.cSamples, exP.gh (gradPos exP i 0) * exP.wts i) ∧
        (exP.bClassification = true →
          ((∑ x ∈ Finset.range 4,
              ((internalLoop exP (fun _ => zeroBin) x).gradientPairs 0).m_sumHessians) =
            ∑ i ∈ Finset.range exP.cSamples, exP.gh (gradPos exP i 0 + 1) * exP.wts i) ∧
          ((zeroDimLoop exP zeroBin).gradientPairs 0).m_sumHessians =
            ∑ i ∈ Finset.range exP.cSamples, exP.gh (gradPos exP i 0 + 1) * exP.wts i)) :=
  ⟨by decide,
    C1_gradient_totals exP 4 (fun _ => zeroBin) zeroBin 0 (by decide) (by decide)
      (by decide) (fun _ _ => rfl) rfl (by decide)⟩

/-- Debug acceptance check on the inner bag's precomputed `weightTotal`
(lines 129-131 and 351-353): `weightTotalDebug * 0.999 <= weightTotal` and
`weightTotal <= 1.001 * weightTotalDebug`, the float literals taken exactly. -/
def weightTotalCheck (weightTotalDebug weightTotal : ℚ) : Prop :=
  weightTotalDebug * (999 / 1000) ≤ weightTotal ∧
    weightTotal ≤ (1001 / 1000) * weightTotalDebug

instance (a b : ℚ) : Decidable (weightTotalCheck a b) := by
  unfold weightTotalCheck
  infer_instance

/-- C5: for every call on a zeroed bin buffer, the sum of `bin.weight` over
all bins equals the sum of the inner bag's per-sample weights (the code's
`weightTotalDebug`), in both paths; consequently, whenever the inner bag's
`weightTotal` passes the code's debug tolerance check against the directly
recomputed weight sum, it passes the same multiplicative-interval check
against the accumulated per-bin weight total. -/
theorem C5_weight_total (P : BoostParams) (cBins : Nat) (bins : Nat → Bin) (b : Bin)
    (weightTotal : ℚ)
    (hS : 1 ≤ P.cSamples) (hI : 1 ≤ P.cItemsPerBitPack)
    (hbins : ∀ j, j < cBins → (bins j).weight = 0) (hb : b.weight = 0)
    (hrange : ∀ j ∈ decodedBins P, j < cBins)
    (hWT : weightTotalCheck (∑ i ∈ Finset.range P.cSamples, P.wts i) weightTotal) :
    ((∑ x ∈ Finset.range cBins, (internalLoop P bins x).weight) =
        ∑ i ∈ Finset.range P.cSamples, P.wts i) ∧
      ((zeroDimLoop P b).weight = ∑ i ∈ Finset.range P.cSamples, P.wts i) ∧
      weightTotalCheck (∑ x ∈ Finset.range cBins, (internalLoop P bins x).weight)
        weightTotal ∧
      weightTotalCheck ((zeroDimLoop P b).weight) weightTotal := by
  have h1 : (∑ x ∈ Finset.range cBins, (internalLoop P bins x).weight) =
      ∑ i ∈ Finset.range P.cSamples, P.wts i := by
    rw [internalLoop_eq_applySamples,
      sum_applySamples P cBins (fun bb => bb.weight) P.wts
        (fun i bb => updateBinSample_weight P i bb) _ 0 bins hrange,
      decodedBins_length P hS hI]
    have hz : (∑ x ∈ Finset.range cBins, (bins x).weight) = 0 :=
      Finset.sum_eq_zero fun x hx => hbins x (Finset.mem_range.mp hx)
    rw [hz, zero_add]
    exact Finset.sum_congr rfl fun t _ => by rw [Nat.zero_add]
  have h2 : (zeroDimLoop P b).weight = ∑ i ∈ Finset.range P.cSamples, P.wts i := by
    rw [zeroDimLoop,
      zeroDimGo_measure P (fun bb => bb.weight) P.wts
        (fun i bb => updateBinSample_weight P i bb) P.cSamples 0 b,
      hb, zero_add]
    exact Finset.sum_congr rfl fun t _ => by rw [Nat.zero_add]
  exact ⟨h1, h2, by rw [h1]; exact hWT, by rw [h2]; exact hWT⟩

/-- Witness for C5: the theorem applied at the concrete call `exP` with
`weightTotal = 15`, the exact recomputed weight sum. -/
theorem C5_witness :
    weightTotalCheck (∑ i ∈ Finset.range exP.cSamples, exP.wts i) 15 ∧
      (((∑ x ∈ Finset.range 4, (internalLoop exP (fun _ => zeroBin) x).weight) =
          ∑ i ∈ Finset.range exP.cSamples, exP.wts i) ∧
        ((zeroDimLoop exP zeroBin).weight = ∑ i ∈ Finset.range exP.cSamples, exP.wts i) ∧
        weightTotalCheck (∑ x ∈ Finset.range 4, (internalLoop exP (fun _ => zeroBin) x).weight)
          15 ∧
        weightTotalCheck ((zeroDimLoop exP zeroBin).weight) 15) :=
  ⟨by norm_num [weightTotalCheck, exP, Finset.sum_range_succ],
    C5_weight_total exP 4 (fun _ => zeroBin) zeroBin 15 (by decide) (by decide)
      (fun _ _ => rfl) rfl (by decide)
      (by norm_num [weightTotalCheck, exP, Finset.sum_range_succ])⟩

theorem decodeGroup_zero (B : Nat) : ∀ cnt, decodeGroup B 0 cnt = List.replicate cnt 0 := by
  intro cnt
  induction cnt with
  | zero => rfl
  | succ n ih =>
    rw [decodeGroup, Nat.zero_shiftRight, ih, Nat.zero_and, List.replicate_succ]

theorem decodedWords_zero (P : BoostParams) (hz : ∀ w, P.inputData w = 0) :
    ∀ g iWord, decodedWords P g iWord =
      List.replicate (g * P.cItemsPerBitPack + tailCount P) 0 := by
  intro g
  induction g with
  | zero => intro iWord; rw [decodedWords, hz, decodeGroup_zero]; simp
  | succ n ih =>
    intro iWord
    rw [decodedWords, hz, decodeGroup_zero, ih]
    rw [← List.replicate_add]
    congr 1
    ring

theorem applySamples_zeros (P : BoostParams) :
    ∀ n i bins, applySamples P (List.replicate n 0) i bins =
      Function.update bins 0 (zeroDimGo P n i (bins 0)) := by
  intro n
  induction n with
  | zero =>
    intro i bins
    rw [List.replicate, applySamples, zeroDimGo, Function.update_eq_self]
  | succ n ih =>
    intro i bins
    rw [List.replicate_succ, applySamples, ih, Function.update_same,
      Function.update_idem, zeroDimGo]

/-- C6: when every packed input word is zero (a single-cell tensor, every
sample decoding to bin 0), the indexed accumulator on a one-bin buffer
produces at bin 0 exactly the bin the zero-dimension accumulator produces
from the same inputs, and leaves every other bin untouched. -/
theorem C6_single_cell_equiv (P : BoostParams) (bins : Nat → Bin)
    (hS : 1 ≤ P.cSamples) (hI : 1 ≤ P.cItemsPerBitPack)
    (hz : ∀ w, P.inputData w = 0) :
    internalLoop P bins 0 = zeroDimLoop P (bins 0) ∧
      ∀ j, j ≠ 0 → internalLoop P bins j = bins j := by
  have h : internalLoop P bins =
      Function.update bins 0 (zeroDimGo P P.cSamples 0 (bins 0)) := by
    rw [internalLoop_eq_applySamples, decodedBins, decodedWords_zero P hz,
      groups_total P hS hI, applySamples_zeros]
  constructor
  · rw [h, Function.update_same]
    rfl
  · intro j hj
    rw [h, Function.update_apply, if_neg hj]

/-- Single-cell variant of the example call: every packed word is zero. -/
def exP0 : BoostParams :=
  { exP with inputData := fun _ => 0 }

/-- Witness for C6: the theorem applied at the concrete single-cell call
`exP0` on a zeroed buffer. -/
theorem C6_witness :
    (1 ≤ exP0.cSamples) ∧
      (internalLoop exP0 (fun _ => zeroBin) 0 = zeroDimLoop exP0 zeroBin ∧
        ∀ j, j ≠ 0 → internalLoop exP0 (fun _ => zeroBin) j = zeroBin) :=
  ⟨by decide,
    C6_single_cell_equiv exP0 (fun _ => zeroBin) (by decide) (by decide)
      (fun _ => rfl)⟩

theorem zeroDimGo_foldl (P : BoostParams) :
    ∀ n i b, zeroDimGo P n i b =
      (List.range' i n).foldl (fun bb ii => updateBinSample P ii bb) b := by
  intro n
  induction n with
  | zero => intro i b; rfl
  | succ n ih =>
    intro i b
    rw [zeroDimGo, List.range'_succ, List.foldl_cons, ih]

/-- C8: under the preconditions (positive sample count, pack width between
1 and the storage-word bit count) each path processes exactly the full
sample count: the zero-dimension loop is the fold of the per-sample update
over exactly the sample indices `[0, cSamples)`, and the indexed path
decodes exactly `cSamples` bin indices and is the sequential accumulation
along that decoded stream. -/
theorem C8_full_pass (P : BoostParams)
    (hS : 1 ≤ P.cSamples) (hI : 1 ≤ P.cItemsPerBitPack)
    (hW : P.cItemsPerBitPack ≤ k_cBitsForStorageType) :
    (∀ b, zeroDimLoop P b =
        (List.range P.cSamples).foldl (fun bb ii => updateBinSample P ii bb) b) ∧
      (decodedBins P).length = P.cSamples ∧
      ∀ bins, internalLoop P bins = applySamples P (decodedBins P) 0 bins := by
  refine ⟨fun b => ?_, decodedBins_length P hS hI,
    fun bins => internalLoop_eq_applySamples P bins⟩
  rw [zeroDimLoop, zeroDimGo_foldl, List.range_eq_range']

/-- Witness for C8: the theorem applied at the concrete call `exP`. -/
theorem C8_witness :
    (1 ≤ exP.cSamples) ∧
      ((∀ b, zeroDimLoop exP b =
          (List.range exP.cSamples).foldl (fun bb ii => updateBinSample exP ii bb) b) ∧
        (decodedBins exP).length = exP.cSamples ∧
        ∀ bins, internalLoop exP bins = applySamples exP (decodedBins exP) 0 bins) :=
  ⟨by decide, C8_full_pass exP (by decide) (by decide) (by decide)⟩

theorem updateBinSample_hess_frame (P : BoostParams)
    (hreg : P.bClassification = false) (i : Nat) (b : Bin) (t : Nat) :
    ((updateBinSample P i b).gradientPairs t).m_sumHessians =
      (b.gradientPairs t).m_sumHessians := by
  rw [updateBinSample_pairs]
  split
  · simp [accumPair, hreg]
  · rfl

theorem applySamples_hess_frame (P : BoostParams)
    (hreg : P.bClassification = false) :
    ∀ l i bins j t,
      ((applySamples P l i bins j).gradientPairs t).m_sumHessians =
        ((bins j).gradientPairs t).m_sumHessians := by
  intro l
  induction l with
  | nil => intro i bins j t; rfl
  | cons jj rest ih =>
    intro i bins j t
    show ((applySamples P rest (i + 1)
        (Function.update bins jj (updateBinSample P i (bins jj))) j).gradientPairs t).m_sumHessians = _
    rw [ih]
    rcases eq_or_ne j jj with rfl | hj
    · rw [Function.update_same, updateBinSample_hess_frame P hreg]
    · rw [Function.update_apply, if_neg hj]

theorem zeroDimGo_hess_frame (P : BoostParams)
    (hreg : P.bClassification = false) :
    ∀ n i b t, ((zeroDimGo P n i b).gradientPairs t).m_sumHessians =
      (b.gradientPairs t).m_sumHessians := by
  intro n
  induction n with
  | zero => intro i b t; rfl
  | succ n ih =>
    intro i b t
    rw [zeroDimGo, ih, updateBinSample_hess_frame P hreg]

/-- C10: for every regression call (`bClassification = false`) the
accumulator leaves `sumHessians` of every gradient pair of every bin
unchanged, in both paths, and consumes the gradient array with stride 1 per
score (the gradient of sample `i`, score `s` sits at `cScores * i + s`, so
no interleaved hessian slot exists or is read). -/
theorem C10_regression_frame (P : BoostParams)
    (hreg : P.bClassification = false) (bins : Nat → Bin) (b : Bin) :
    (∀ j t, ((internalLoop P bins j).gradientPairs t).m_sumHessians =
        ((bins j).gradientPairs t).m_sumHessians) ∧
      (∀ t, ((zeroDimLoop P b).gradientPairs t).m_sumHessians =
        ((b.gradientPairs t).m_sumHessians)) ∧
      ∀ i s, gradPos P i s = P.cScores * i + s := by
  refine ⟨fun j t => ?_, fun t => zeroDimGo_hess_frame P hreg P.cSamples 0 b t,
    fun i s => ?_⟩
  · rw [internalLoop_eq_applySamples, applySamples_hess_frame P hreg]
  · rw [gradPos, ghStride, hreg]
    simp

/-- Regression variant of the example call: one score, no hessians. -/
def exPreg : BoostParams :=
  { exP with bClassification := false, cScores := 1 }

/-- Witness for C10: the theorem applied at the concrete regression call
`exPreg` on a zeroed buffer and bin. -/
theorem C10_witness :
    (exPreg.bClassification = false) ∧
      ((∀ j t, ((internalLoop exPreg (fun _ => zeroBin) j).gradientPairs t).m_sumHessians =
          ((zeroBin.gradientPairs t).m_sumHessians)) ∧
        (∀ t, ((zeroDimLoop exPreg zeroBin).gradientPairs t).m_sumHessians =
          ((zeroBin.gradientPairs t).m_sumHessians)) ∧
        ∀ i s, gradPos exPreg i s = exPreg.cScores * i + s) :=
  ⟨rfl, C10_regression_frame exPreg rfl (fun _ => zeroBin) zeroBin⟩

theorem tailCount_eq (P : BoostParams) (hS : 1 ≤ P.cSamples)
    (hI : 1 ≤ P.cItemsPerBitPack) :
    tailCount P = if P.cSamples % P.cItemsPerBitPack = 0 then P.cItemsPerBitPack
      else P.cSamples % P.cItemsPerBitPack := by
  have hq := Nat.div_add_mod P.cSamples P.cItemsPerBitPack
  have hr : P.cSamples % P.cItemsPerBitPack < P.cItemsPerBitPack :=
    Nat.mod_lt _ (by omega)
  rw [tailCount]
  by_cases h0 : P.cSamples % P.cItemsPerBitPack = 0
  · rw [if_pos h0]
    have hq1 : 1 ≤ P.cSamples / P.cItemsPerBitPack := by
      rcases Nat.eq_zero_or_pos (P.cSamples / P.cItemsPerBitPack) with hz | hp
      · rw [hz, Nat.mul_zero] at hq
        omega
      · exact hp
    obtain ⟨q, hqdef⟩ : ∃ q, P.cSamples / P.cItemsPerBitPack = q + 1 :=
      ⟨P.cSamples / P.cItemsPerBitPack - 1, by omega⟩
    rw [hqdef] at hq
    have hmul : P.cItemsPerBitPack * (q + 1) = P.cItemsPerBitPack * q + P.cItemsPerBitPack := by
      ring
    have hsub : P.cSamples - 1 = P.cItemsPerBitPack * q + (P.cItemsPerBitPack - 1) := by
      omega
    rw [hsub, Nat.mul_add_mod, Nat.mod_eq_of_lt (by omega)]
    omega
  · rw [if_neg h0]
    have hsub : P.cSamples - 1 =
        P.cItemsPerBitPack * (P.cSamples / P.cItemsPerBitPack) +
          (P.cSamples % P.cItemsPerBitPack - 1) := by
      omega
    rw [hsub, Nat.mul_add_mod, Nat.mod_eq_of_lt (by omega)]
    omega

theorem gradPos_bounds (P : BoostParams) (i t : Nat) (ht : t < P.cScores) :
    ghStride P * P.cScores * i ≤ gradPos P i t ∧
      gradPos P i t + (ghStride P - 1) < ghStride P * P.cScores * (i + 1) := by
  have hdist : P.cScores * (i + 1) = P.cScores * i + P.cScores := by ring
  rw [gradPos, ghStride]
  rcases P.bClassification with _ | _
  · simp only [Bool.false_eq_true, if_false]
    have h1 : 1 * P.cScores * i = P.cScores * i := by ring
    have h2 : 1 * (P.cScores * i + t) = P.cScores * i + t := by ring
    have h3 : 1 * P.cScores * (i + 1) = P.cScores * (i + 1) := by ring
    rw [h1, h2, h3, hdist]
    omega
  · simp only [if_true]
    have h1 : 2 * P.cScores * i = 2 * (P.cScores * i) := by ring
    have h2 : 2 * P.cScores * (i + 1) = 2 * (P.cScores * i) + 2 * P.cScores := by
      rw [Nat.mul_assoc, hdist]
      ring
    rw [h1, h2]
    omega

theorem updateBinSample_ext (P Q : BoostParams)
    (hb : P.bClassification = Q.bClassification) (hsc : P.cScores = Q.cScores)
    (hs1 : 1 ≤ P.cScores) (i : Nat)
    (hocc : P.occ i = Q.occ i) (hwts : P.wts i = Q.wts i)
    (hgh : ∀ p, ghStride P * P.cScores * i ≤ p →
      p < ghStride P * P.cScores * (i + 1) → P.gh p = Q.gh p)
    (b : Bin) : updateBinSample P i b = updateBinSample Q i b := by
  have hstride : ghStride P = ghStride Q := by rw [ghStride, ghStride, hb]
  have hpos : ∀ t, gradPos P i t = gradPos Q i t := by
    intro t
    rw [gradPos, gradPos, hstride, hsc]
  have hpair : ∀ t, t < P.cScores →
      accumPair P i t (b.gradientPairs t) = accumPair Q i t (b.gradientPairs t) := by
    intro t ht
    obtain ⟨hlo, hhi⟩ := gradPos_bounds P i t ht
    have hg : P.gh (gradPos P i t) = Q.gh (gradPos P i t) :=
      hgh _ hlo (by omega)
    rw [accumPair, accumPair, ← hpos t, ← hb, hwts, ← hg]
    rcases hcl : P.bClassification with _ | _
    · simp
    · have hg2 : P.gh (gradPos P i t + 1) = Q.gh (gradPos P i t + 1) := by
        apply hgh _ (by omega)
        have h2 : ghStride P = 2 := by rw [ghStride, hcl]; rfl
        omega
      simp [hg2]
  have hpairs : pairsGo P i 0 b.gradientPairs = pairsGo Q i 0 b.gradientPairs := by
    funext t
    have h1 := pairsGo_apply P i P.cScores 0 b.gradientPairs t (by omega)
    have h2 := pairsGo_apply Q i Q.cScores 0 b.gradientPairs t (by omega)
    rw [h1, h2, ← hsc]
    by_cases hc : 0 ≤ t ∧ (t < P.cScores ∨ t = 0)
    · have ht : t < P.cScores := by omega
      rw [if_pos hc, if_pos hc, hpair t ht]
    · rw [if_neg hc, if_neg hc]
  rw [updateBinSample, updateBinSample, hocc, hwts, hpairs]

theorem applySamples_ext (P Q : BoostParams)
    (hb : P.bClassification = Q.bClassification) (hsc : P.cScores = Q.cScores)
    (hs1 : 1 ≤ P.cScores) :
    ∀ l i bins,
      (∀ k, i ≤ k → k < i + l.length → P.occ k = Q.occ k) →
      (∀ k, i ≤ k → k < i + l.length → P.wts k = Q.wts k) →
      (∀ p, ghStride P * P.cScores * i ≤ p →
        p < ghStride P * P.cScores * (i + l.length) → P.gh p = Q.gh p) →
      applySamples P l i bins = applySamples Q l i bins := by
  intro l
  induction l with
  | nil => intro i bins _ _ _; rfl
  | cons j rest ih =>
    intro i bins hocc hwts hgh
    simp only [List.length_cons] at hocc hwts hgh
    have hA : ghStride P * P.cScores * (i + 1) ≤
        ghStride P * P.cScores * (i + (rest.length + 1)) :=
      Nat.mul_le_mul (le_refl _) (by omega)
    have hhead : updateBinSample P i (bins j) = updateBinSample Q i (bins j) :=
      updateBinSample_ext P Q hb hsc hs1 i
        (hocc i (le_refl i) (by omega)) (hwts i (le_refl i) (by omega))
        (fun p hp1 hp2 => hgh p hp1 (by omega)) (bins j)
    show applySamples P rest (i + 1)
        (Function.update bins j (updateBinSample P i (bins j))) =
      applySamples Q rest (i + 1)
        (Function.update bins j (updateBinSample Q i (bins j)))
    rw [← hhead]
    apply ih (i + 1)
    · intro k hk1 hk2
      exact hocc k (by omega) (by omega)
    · intro k hk1 hk2
      exact hwts k (by omega) (by omega)
    · intro p hp1 hp2
      apply hgh p (le_trans (Nat.mul_le_mul (le_refl _) (by omega : i ≤ i + 1)) hp1)
      have heq : i + 1 + rest.length = i + (rest.length + 1) := by omega
      rw [heq] at hp2
      exact hp2

theorem decodedWords_ext (P Q : BoostParams)
    (hB : P.cBitsPerItemMax = Q.cBitsPerItemMax)
    (hI : P.cItemsPerBitPack = Q.cItemsPerBitPack)
    (hT : tailCount P = tailCount Q) :
    ∀ g iWord, (∀ w, iWord ≤ w → w ≤ iWord + g → P.inputData w = Q.inputData w) →
      decodedWords P g iWord = decodedWords Q g iWord := by
  intro g
  induction g with
  | zero =>
    intro iWord hw
    rw [decodedWords, decodedWords, hB, hT, hw iWord (le_refl _) (by omega)]
  | succ n ih =>
    intro iWord hw
    rw [decodedWords, decodedWords, hB, hI, hw iWord (le_refl _) (by omega),
      ih (iWord + 1) (fun w h1 h2 => hw w (by omega) (by omega))]

/-- C2: the indexed accumulator's tail pass handles exactly
`cSamples mod itemsPerWord` samples (`itemsPerWord` when evenly divisible),
the full passes and the tail together process exactly `cSamples` samples,
and the result never depends on any entry of the occurrence, weight,
gradient/hessian or packed-word arrays at or past its bound: two calls
whose arrays agree below the bounds produce identical bin buffers. -/
theorem C2_tail_handling (P Q : BoostParams)
    (hS : 1 ≤ P.cSamples) (hI : 1 ≤ P.cItemsPerBitPack) (hs1 : 1 ≤ P.cScores)
    (hb : P.bClassification = Q.bClassification) (hsc : P.cScores = Q.cScores)
    (hN : P.cSamples = Q.cSamples) (hIe : P.cItemsPerBitPack = Q.cItemsPerBitPack)
    (hBe : P.cBitsPerItemMax = Q.cBitsPerItemMax)
    (hocc : ∀ k, k < P.cSamples → P.occ k = Q.occ k)
    (hwts : ∀ k, k < P.cSamples → P.wts k = Q.wts k)
    (hgh : ∀ p, p < ghStride P * P.cScores * P.cSamples → P.gh p = Q.gh p)
    (hwords : ∀ w, w ≤ fullGroups P → P.inputData w = Q.inputData w) :
    tailCount P = (if P.cSamples % P.cItemsPerBitPack = 0 then P.cItemsPerBitPack
        else P.cSamples % P.cItemsPerBitPack) ∧
      fullGroups P * P.cItemsPerBitPack + tailCount P = P.cSamples ∧
      ∀ bins, internalLoop P bins = internalLoop Q bins := by
  refine ⟨tailCount_eq P hS hI, groups_total P hS hI, fun bins => ?_⟩
  have hT : tailCount P = tailCount Q := by rw [tailCount, tailCount, hN, hIe]
  have hG : fullGroups P = fullGroups Q := by rw [fullGroups, fullGroups, hN, hIe]
  have hdec : decodedBins P = decodedBins Q := by
    rw [decodedBins, decodedBins, ← hG]
    exact decodedWords_ext P Q hBe hIe hT (fullGroups P) 0
      (fun w h1 h2 => hwords w (by omega))
  have hlen : (decodedBins P).length = P.cSamples := decodedBins_length P hS hI
  rw [internalLoop_eq_applySamples, internalLoop_eq_applySamples, ← hdec]
  apply applySamples_ext P Q hb hsc hs1 (decodedBins P) 0 bins
  · intro k hk1 hk2
    exact hocc k (by omega)
  · intro k hk1 hk2
    exact hwts k (by omega)
  · intro p hp1 hp2
    apply hgh p
    rw [Nat.zero_add] at hp2
    rw [← hlen]
    exact hp2

/-- Out-of-bounds variant of `exP`: every array entry at or past its bound
is replaced by garbage; agreement holds only below the bounds. -/
def exC2Q : BoostParams :=
  { bClassification := true
    cScores := 2
    cSamples := 5
    occ := fun i => if i < 5 then i + 1 else 77
    wts := fun i => if i < 5 then (i : ℚ) + 1 else 99
    gh := fun p => if p < 20 then (p : ℚ) else 1000
    cItemsPerBitPack := 4
    cBitsPerItemMax := 2
    inputData := fun w => if w ≤ 1 then (if w = 0 then 0x6C else 0x2) else 555 }

/-- Witness for C2: the theorem applied to `exP` against `exC2Q`, which
differs from `exP` exactly at the out-of-bounds entries. -/
theorem C2_witness :
    (1 ≤ exP.cSamples) ∧
      (tailCount exP = (if exP.cSamples % exP.cItemsPerBitPack = 0 then exP.cItemsPerBitPack
          else exP.cSamples % exP.cItemsPerBitPack) ∧
        fullGroups exP * exP.cItemsPerBitPack + tailCount exP = exP.cSamples ∧
        ∀ bins, internalLoop exP bins = internalLoop exC2Q bins) :=
  ⟨by decide,
    C2_tail_handling exP exC2Q (by decide) (by decide) (by decide) rfl rfl rfl rfl rfl
      (fun k hk => by
        have h5 : k < 5 := hk
        simp [exP, exC2Q, h5])
      (fun k hk => by
        have h5 : k < 5 := hk
        simp [exP, exC2Q, h5])
      (fun p hp => by
        have h20 : p < 20 := hp
        simp [exP, exC2Q, h20])
      (fun w hw => by
        have h1 : w ≤ 1 := hw
        simp [exP, exC2Q, h1])⟩

/-- Modelled from the spec: `GetCountBits` is declared in
`ebm_internal.hpp`, which is not part of src/; the spec defines the field
width as "bitsPerItem = minimal bits to represent itemsPerWord-1 values",
modelled as the least bit width `b` (at most the storage word width) with
`itemsPerWord - 1 ≤ 2 ^ b`. -/
def GetCountBits (cItemsPerBitPack : Nat) : Nat :=
  match (List.range (k_cBitsForStorageType + 1)).find?
      (fun b => Nat.ble (cItemsPerBitPack - 1) (2 ^ b)) with
  | some b => b
  | none => k_cBitsForStorageType

theorem and_maskBitsOf (word bits : Nat) (hb : bits ≤ k_cBitsForStorageType) :
    word &&& maskBitsOf bits = word % 2 ^ bits := by
  rw [maskBitsOf_eq bits hb, Nat.and_pow_two_sub_one_eq_mod]

theorem decodeGroup_roundtrip (bits : Nat) (hb : bits ≤ k_cBitsForStorageType) :
    ∀ cnt f, (∀ j, j < cnt → f j < 2 ^ bits) →
      decodeGroup bits (∑ j ∈ Finset.range cnt, f j * 2 ^ (bits * j)) cnt =
        (List.range cnt).map f := by
  intro cnt
  induction cnt with
  | zero => intro f _; rfl
  | succ n ih =>
    intro f hf
    have hsplit : (∑ j ∈ Finset.range (n + 1), f j * 2 ^ (bits * j)) =
        f 0 + (∑ j ∈ Finset.range n, f (j + 1) * 2 ^ (bits * j)) * 2 ^ bits := by
      rw [Finset.sum_range_succ', Finset.sum_mul]
      have hterm : ∀ j, f (j + 1) * 2 ^ (bits * (j + 1)) =
          f (j + 1) * 2 ^ (bits * j) * 2 ^ bits := by
        intro j
        rw [Nat.mul_assoc, ← pow_add]
        ring_nf
      rw [Finset.sum_congr rfl (fun j _ => hterm j)]
      have h0 : f 0 * 2 ^ (bits * 0) = f 0 := by norm_num
      rw [h0]
      ring
    have hpow : (0 : Nat) < 2 ^ bits := pow_pos (by norm_num) _
    have hmod : (f 0 + (∑ j ∈ Finset.range n, f (j + 1) * 2 ^ (bits * j)) * 2 ^ bits) %
        2 ^ bits = f 0 := by
      rw [Nat.add_mul_mod_self_right, Nat.mod_eq_of_lt (hf 0 (by omega))]
    have hdiv : (f 0 + (∑ j ∈ Finset.range n, f (j + 1) * 2 ^ (bits * j)) * 2 ^ bits) /
        2 ^ bits = ∑ j ∈ Finset.range n, f (j + 1) * 2 ^ (bits * j) := by
      rw [Nat.add_mul_div_right _ _ hpow, Nat.div_eq_of_lt (hf 0 (by omega)), Nat.zero_add]
    rw [decodeGroup, hsplit, and_maskBitsOf _ _ hb, hmod,
      Nat.shiftRight_eq_div_pow, hdiv, ih (fun j => f (j + 1)) (fun j hj => hf (j + 1) (by omega)),
      List.range_succ_eq_map, List.map_cons, List.map_map]
    simp [Function.comp, Nat.succ_eq_add_one]

/-- C4: with the field width `bitsPerItem = GetCountBits itemsPerWord`
(spec-modelled), a storage word packing `itemsPerWord` fields of that width
least-significant-first is decoded by the inner loop exactly: the mask is
`bitsPerItem` one-bits, masking recovers the low field, shifting by
`bitsPerItem` exposes the next, and after `itemsPerWord` fields the outer
loop advances to the next input word. -/
theorem C4_bitpack_decode (cItems : Nat) (f : Nat → Nat)
    (hI : 1 ≤ cItems) (hb : GetCountBits cItems ≤ k_cBitsForStorageType)
    (hf : ∀ j, j < cItems → f j < 2 ^ GetCountBits cItems) :
    maskBitsOf (GetCountBits cItems) = 2 ^ GetCountBits cItems - 1 ∧
      decodeGroup (GetCountBits cItems)
        (∑ j ∈ Finset.range cItems, f j * 2 ^ (GetCountBits cItems * j)) cItems =
        (List.range cItems).map f ∧
      ∀ (P : BoostParams) (g iWord : Nat),
        decodedWords P (g + 1) iWord =
          decodeGroup P.cBitsPerItemMax (P.inputData iWord) P.cItemsPerBitPack ++
            decodedWords P g (iWord + 1) :=
  ⟨maskBitsOf_eq _ hb, decodeGroup_roundtrip _ hb cItems f hf,
    fun _ _ _ => rfl⟩

/-- Witness for C4: pack width 4 with `GetCountBits 4 = 2`-bit fields; the
field sequence [0, 3, 2, 1] encodes to the word 0x6C and decodes back. -/
theorem C4_witness :
    (1 ≤ 4) ∧
      (maskBitsOf (GetCountBits 4) = 2 ^ GetCountBits 4 - 1 ∧
        decodeGroup (GetCountBits 4)
          (∑ j ∈ Finset.range 4,
            ((0x6C >>> (2 * j)) &&& 3) * 2 ^ (GetCountBits 4 * j)) 4 =
          (List.range 4).map (fun j => (0x6C >>> (2 * j)) &&& 3) ∧
        ∀ (P : BoostParams) (g iWord : Nat),
          decodedWords P (g + 1) iWord =
            decodeGroup P.cBitsPerItemMax (P.inputData iWord) P.cItemsPerBitPack ++
              decodedWords P g (iWord + 1)) :=
  ⟨by decide,
    C4_bitpack_decode 4 (fun j => (0x6C >>> (2 * j)) &&& 3) (by decide) (by decide)
      (fun j hj => by
        show (0x6C >>> (2 * j)) &&& 3 < 2 ^ GetCountBits 4
        have h := Nat.and_le_right (n := 0x6C >>> (2 * j)) (m := 3)
        have hp : (2 : Nat) ^ GetCountBits 4 = 4 := by decide
        omega)⟩

/-- Modelled from the spec: the regression sentinel `k_regression` from
`ebm_internal.hpp` (not in src/); runtime class counts are `ptrdiff_t`,
regression is a negative sentinel. -/
def k_regression : Int := -1

/-- Modelled from the spec: the dynamic classification sentinel
`k_dynamicClassification` from `ebm_internal.hpp` (not in src/), a
classification value below every real class count. -/
def k_dynamicClassification : Int := 0

/-- Modelled from the spec: `IsClassification` from `ebm_internal.hpp`
(not in src/) — nonnegative class parameters (the dynamic sentinel
included) denote classification. -/
def IsClassification (cClasses : Int) : Bool := 0 ≤ cClasses

/-- Modelled from the spec: `IsRegression` from `ebm_internal.hpp`
(not in src/). -/
def IsRegression (cClasses : Int) : Bool := cClasses = k_regression

/-- Modelled from the spec: `GetCountScores` from `ebm_internal.hpp`
(not in src/) — one score for regression and non-expanded binary
classification, one score per class for multiclass. -/
def GetCountScores (cClasses : Int) : Nat :=
  if cClasses ≤ 2 then 1 else cClasses.toNat

/-- Modelled from the spec: `GET_COUNT_CLASSES` from `ebm_internal.hpp`
(not in src/) — resolve the compile-time class parameter against the
runtime count. -/
def GET_COUNT_CLASSES (cCompilerClasses cRuntimeClasses : Int) : Int :=
  if cCompilerClasses = k_dynamicClassification then cRuntimeClasses
  else cCompilerClasses

/-- Modelled from the spec: `k_cCompilerClassesMax` (the spec's K_max)
from `ebm_internal.hpp` (not in src/), the largest enumerated class-count
specialization. -/
def k_cCompilerClassesMax : Nat := 8

/-- Modelled from the spec: the dynamic pack-width sentinel
`k_cItemsPerBitPackDynamic` from `ebm_internal.hpp` (not in src/); real
pack widths are 1 or more. -/
def k_cItemsPerBitPackDynamic : Nat := 0

/-- Modelled from the spec: `k_cItemsPerBitPackMax` from
`ebm_internal.hpp` (not in src/), the widest enumerated items-per-word
value (a full word of one-bit fields). -/
def k_cItemsPerBitPackMax : Nat := 64

/-- Modelled from the spec: `GET_ITEMS_PER_BIT_PACK` from
`ebm_internal.hpp` (not in src/). -/
def GET_ITEMS_PER_BIT_PACK (compilerBitPack runtimeBitPack : Nat) : Nat :=
  if compilerBitPack = k_cItemsPerBitPackDynamic then runtimeBitPack
  else compilerBitPack

/-- Modelled from the spec: `GetNextCountItemsBitPacked` from
`ebm_internal.hpp` (not in src/) — walk the enumerated items-per-word
values (the distinct values of `64 / bits`) downward; after 1 it yields
the dynamic sentinel. -/
def GetNextCountItemsBitPacked (cItemsBitPacked : Nat) : Nat :=
  k_cBitsForStorageType / (k_cBitsForStorageType / cItemsBitPacked + 1)

theorem GetNextCountItemsBitPacked_lt (c : Nat) (hc : c ≠ 0) :
    GetNextCountItemsBitPacked c < c := by
  rw [GetNextCountItemsBitPacked]
  have h2 := Nat.div_add_mod k_cBitsForStorageType c
  have h3 : k_cBitsForStorageType % c < c := Nat.mod_lt _ (by omega)
  have h4 : c * (k_cBitsForStorageType / c + 1) =
      c * (k_cBitsForStorageType / c) + c := by ring
  have h5 : (0 : Nat) < k_cBitsForStorageType / c + 1 := Nat.succ_pos _
  have h6 : k_cBitsForStorageType < c * (k_cBitsForStorageType / c + 1) := by omega
  exact (Nat.div_lt_iff_lt_mul h5).mpr h6

/-- The caller-owned context `BinSumsBoosting` reads through
`BoosterShell`/`BoosterCore`: runtime class count, training-set arrays,
inner-bag arrays, and per-term bit pack and packed input words. -/
structure BoosterEnv where
  cRuntimeClasses : Int
  cSamples : Nat
  occ : Nat → Nat
  wts : Nat → ℚ
  gh : Nat → ℚ
  termBitPack : Nat → Nat
  termInputData : Nat → Nat → Nat

/-- `BinSumsBoostingZeroDimensions<cCompilerClasses>::Func` (lines 32-134)
as called through the dispatch: resolve the class parameter, then run the
sample loop on the single bin (the pack fields are unused on this path). -/
def BinSumsBoostingZeroDimensionsFunc (cCompilerClasses : Int) (env : BoosterEnv)
    (b : Bin) : Bin :=
  zeroDimLoop
    { bClassification := IsClassification cCompilerClasses
      cScores := GetCountScores (GET_COUNT_CLASSES cCompilerClasses env.cRuntimeClasses)
      cSamples := env.cSamples
      occ := env.occ, wts := env.wts, gh := env.gh
      cItemsPerBitPack := 0, cBitsPerItemMax := 0, inputData := fun _ => 0 } b

/-- `BinSumsBoostingInternal<cCompilerClasses, compilerBitPack>::Func`
(lines 197-356) as called through the dispatch: resolve the class and
pack-width parameters, then run the packed-word loops. -/
def BinSumsBoostingInternalFunc (cCompilerClasses : Int) (compilerBitPack : Nat)
    (env : BoosterEnv) (iTerm : Nat) (bins : Nat → Bin) : Nat → Bin :=
  internalLoop
    { bClassification := IsClassification cCompilerClasses
      cScores := GetCountScores (GET_COUNT_CLASSES cCompilerClasses env.cRuntimeClasses)
      cSamples := env.cSamples
      occ := env.occ, wts := env.wts, gh := env.gh
      cItemsPerBitPack := GET_ITEMS_PER_BIT_PACK compilerBitPack (env.termBitPack iTerm)
      cBitsPerItemMax :=
        GetCountBits (GET_ITEMS_PER_BIT_PACK compilerBitPack (env.termBitPack iTerm))
      inputData := env.termInputData iTerm } bins

/-- `BinSumsBoostingZeroDimensionsTarget<cPossibleClasses>::Func`
(lines 137-189): try each fixed classification count up to
`k_cCompilerClassesMax`; the `k_cCompilerClassesMax + 1` specialization
falls back to the dynamic instance. -/
def BinSumsBoostingZeroDimensionsTargetFunc (cPossibleClasses : Nat)
    (env : BoosterEnv) (b : Bin) : Bin :=
  if h1 : k_cCompilerClassesMax + 1 ≤ cPossibleClasses then
    BinSumsBoostingZeroDimensionsFunc k_dynamicClassification env b
  else if h2 : (cPossibleClasses : Int) = env.cRuntimeClasses then
    BinSumsBoostingZeroDimensionsFunc (cPossibleClasses : Int) env b
  else
    BinSumsBoostingZeroDimensionsTargetFunc (cPossibleClasses + 1) env b
termination_by k_cCompilerClassesMax + 1 - cPossibleClasses
decreasing_by omega

/-- `BinSumsBoostingNormalTarget<cPossibleClasses>::Func` (lines 359-416):
the class-count walk of the non-SIMD indexed path, every leaf using the
dynamic pack width. -/
def BinSumsBoostingNormalTargetFunc (cPossibleClasses : Nat) (env : BoosterEnv)
    (iTerm : Nat) (bins : Nat → Bin) : Nat → Bin :=
  if h1 : k_cCompilerClassesMax + 1 ≤ cPossibleClasses then
    BinSumsBoostingInternalFunc k_dynamicClassification k_cItemsPerBitPackDynamic
      env iTerm bins
  else if h2 : (cPossibleClasses : Int) = env.cRuntimeClasses then
    BinSumsBoostingInternalFunc (cPossibleClasses : Int) k_cItemsPerBitPackDynamic
      env iTerm bins
  else
    BinSumsBoostingNormalTargetFunc (cPossibleClasses + 1) env iTerm bins
termination_by k_cCompilerClassesMax + 1 - cPossibleClasses
decreasing_by omega

/-- `BinSumsBoostingSIMDPacking<cCompilerClasses, compilerBitPack>::Func`
(lines 418-477): match the term's runtime pack width against the
enumerated chain, recursing through `GetNextCountItemsBitPacked`; the
`k_cItemsPerBitPackDynamic` specialization falls back to the dynamic
instance. -/
def BinSumsBoostingSIMDPackingFunc (cCompilerClasses : Int) (compilerBitPack : Nat)
    (env : BoosterEnv) (iTerm : Nat) (bins : Nat → Bin) : Nat → Bin :=
  if h1 : compilerBitPack = k_cItemsPerBitPackDynamic then
    BinSumsBoostingInternalFunc cCompilerClasses k_cItemsPerBitPackDynamic env iTerm bins
  else if h2 : compilerBitPack = env.termBitPack iTerm then
    BinSumsBoostingInternalFunc cCompilerClasses compilerBitPack env iTerm bins
  else
    BinSumsBoostingSIMDPackingFunc cCompilerClasses
      (GetNextCountItemsBitPacked compilerBitPack) env iTerm bins
termination_by compilerBitPack
decreasing_by exact GetNextCountItemsBitPacked_lt compilerBitPack h1

/-- `BinSumsBoostingSIMDTarget<cPossibleClasses>::Func` (lines 479-539):
the class-count walk of the SIMD indexed path, every leaf entering the
pack-width walk at `k_cItemsPerBitPackMax`. -/
def BinSumsBoostingSIMDTargetFunc (cPossibleClasses : Nat) (env : BoosterEnv)
    (iTerm : Nat) (bins : Nat → Bin) : Nat → Bin :=
  if h1 : k_cCompilerClassesMax + 1 ≤ cPossibleClasses then
    BinSumsBoostingSIMDPackingFunc k_dynamicClassification k_cItemsPerBitPackMax
      env iTerm bins
  else if h2 : (cPossibleClasses : Int) = env.cRuntimeClasses then
    BinSumsBoostingSIMDPackingFunc (cPossibleClasses : Int) k_cItemsPerBitPackMax
      env iTerm bins
  else
    BinSumsBoostingSIMDTargetFunc (cPossibleClasses + 1) env iTerm bins
termination_by k_cCompilerClassesMax + 1 - cPossibleClasses
decreasing_by omega

/-- `BinSumsBoosting` (lines 541-619), the entry point: `iTerm = none`
stands for `BoosterShell::k_illegalTermIndex`, `bUseSIMD` for the
process-wide `k_bUseSIMD` flag; the zero-dimension path mutates only the
first bin of the caller's buffer. -/
def BinSumsBoostingFunc (bUseSIMD : Bool) (env : BoosterEnv) (iTerm : Option Nat)
    (bins : Nat → Bin) : Nat → Bin :=
  match iTerm with
  | none =>
    if IsClassification env.cRuntimeClasses then
      Function.update bins 0 (BinSumsBoostingZeroDimensionsTargetFunc 2 env (bins 0))
    else
      Function.update bins 0 (BinSumsBoostingZeroDimensionsFunc k_regression env (bins 0))
  | some t =>
    if bUseSIMD then
      if IsClassification env.cRuntimeClasses then
        BinSumsBoostingSIMDTargetFunc 2 env t bins
      else
        BinSumsBoostingSIMDPackingFunc k_regression k_cItemsPerBitPackMax env t bins
    else
      if IsClassification env.cRuntimeClasses then
        BinSumsBoostingNormalTargetFunc 2 env t bins
      else
        BinSumsBoostingInternalFunc k_regression k_cItemsPerBitPackDynamic env t bins

theorem IsClassification_true (c : Int) (hc : 0 ≤ c) : IsClassification c = true := by
  simp [IsClassification, hc]

theorem zeroDimFunc_congr (cc1 cc2 : Int) (env : BoosterEnv) (b : Bin)
    (h1 : IsClassification cc1 = IsClassification cc2)
    (h2 : GET_COUNT_CLASSES cc1 env.cRuntimeClasses =
      GET_COUNT_CLASSES cc2 env.cRuntimeClasses) :
    BinSumsBoostingZeroDimensionsFunc cc1 env b =
      BinSumsBoostingZeroDimensionsFunc cc2 env b := by
  rw [BinSumsBoostingZeroDimensionsFunc, BinSumsBoostingZeroDimensionsFunc, h1, h2]

theorem internalFunc_congr (cc1 cc2 : Int) (p1 p2 : Nat) (env : BoosterEnv)
    (iTerm : Nat)
    (h1 : IsClassification cc1 = IsClassification cc2)
    (h2 : GET_COUNT_CLASSES cc1 env.cRuntimeClasses =
      GET_COUNT_CLASSES cc2 env.cRuntimeClasses)
    (h3 : GET_ITEMS_PER_BIT_PACK p1 (env.termBitPack iTerm) =
      GET_ITEMS_PER_BIT_PACK p2 (env.termBitPack iTerm))
    (bins : Nat → Bin) :
    BinSumsBoostingInternalFunc cc1 p1 env iTerm bins =
      BinSumsBoostingInternalFunc cc2 p2 env iTerm bins := by
  rw [BinSumsBoostingInternalFunc, BinSumsBoostingInternalFunc, h1, h2, h3]

theorem matched_class_congr (c : Nat) (env : BoosterEnv) (hc : 2 ≤ c)
    (hm : (c : Int) = env.cRuntimeClasses) :
    IsClassification (c : Int) = IsClassification k_dynamicClassification ∧
      GET_COUNT_CLASSES (c : Int) env.cRuntimeClasses =
        GET_COUNT_CLASSES k_dynamicClassification env.cRuntimeClasses := by
  constructor
  · rw [IsClassification_true _ (by omega : (0 : Int) ≤ (c : Int)),
      IsClassification_true _ (by norm_num [k_dynamicClassification])]
  · rw [GET_COUNT_CLASSES, GET_COUNT_CLASSES, if_pos rfl,
      if_neg (by intro h; rw [k_dynamicClassification] at h; omega), hm]

theorem zeroDimTarget_eq (env : BoosterEnv) (b : Bin) :
    ∀ n c, k_cCompilerClassesMax + 1 - c ≤ n → 2 ≤ c →
      BinSumsBoostingZeroDimensionsTargetFunc c env b =
        BinSumsBoostingZeroDimensionsFunc k_dynamicClassification env b := by
  intro n
  induction n with
  | zero =>
    intro c hn hc
    rw [BinSumsBoostingZeroDimensionsTargetFunc, dif_pos (by omega)]
  | succ n ih =>
    intro c hn hc
    rw [BinSumsBoostingZeroDimensionsTargetFunc]
    by_cases hK : k_cCompilerClassesMax + 1 ≤ c
    · rw [dif_pos hK]
    · rw [dif_neg hK]
      by_cases hm : (c : Int) = env.cRuntimeClasses
      · rw [dif_pos hm]
        obtain ⟨e1, e2⟩ := matched_class_congr c env hc hm
        exact zeroDimFunc_congr _ _ env b e1 e2
      · rw [dif_neg hm]
        exact ih (c + 1) (by omega) (by omega)

theorem normalTarget_eq (env : BoosterEnv) (iTerm : Nat) (bins : Nat → Bin) :
    ∀ n c, k_cCompilerClassesMax + 1 - c ≤ n → 2 ≤ c →
      BinSumsBoostingNormalTargetFunc c env iTerm bins =
        BinSumsBoostingInternalFunc k_dynamicClassification k_cItemsPerBitPackDynamic
          env iTerm bins := by
  intro n
  induction n with
  | zero =>
    intro c hn hc
    rw [BinSumsBoostingNormalTargetFunc, dif_pos (by omega)]
  | succ n ih =>
    intro c hn hc
    rw [BinSumsBoostingNormalTargetFunc]
    by_cases hK : k_cCompilerClassesMax + 1 ≤ c
    · rw [dif_pos hK]
    · rw [dif_neg hK]
      by_cases hm : (c : Int) = env.cRuntimeClasses
      · rw [dif_pos hm]
        obtain ⟨e1, e2⟩ := matched_class_congr c env hc hm
        exact internalFunc_congr _ _ _ _ env iTerm e1 e2 rfl bins
      · rw [dif_neg hm]
        exact ih (c + 1) (by omega) (by omega)

theorem simdPacking_eq (cc : Int) (env : BoosterEnv) (iTerm : Nat)
    (bins : Nat → Bin) :
    ∀ c, BinSumsBoostingSIMDPackingFunc cc c env iTerm bins =
      BinSumsBoostingInternalFunc cc k_cItemsPerBitPackDynamic env iTerm bins := by
  intro c
  induction c using Nat.strong_induction_on with
  | _ c ih =>
    rw [BinSumsBoostingSIMDPackingFunc]
    by_cases h1 : c = k_cItemsPerBitPackDynamic
    · rw [dif_pos h1]
    · rw [dif_neg h1]
      by_cases h2 : c = env.termBitPack iTerm
      · rw [dif_pos h2]
        apply internalFunc_congr _ _ _ _ env iTerm rfl rfl _ bins
        rw [GET_ITEMS_PER_BIT_PACK, GET_ITEMS_PER_BIT_PACK, if_neg h1, if_pos rfl]
        exact h2
      · rw [dif_neg h2]
        exact ih _ (GetNextCountItemsBitPacked_lt c h1)

theorem simdTarget_eq (env : BoosterEnv) (iTerm : Nat) (bins : Nat → Bin) :
    ∀ n c, k_cCompilerClassesMax + 1 - c ≤ n → 2 ≤ c →
      BinSumsBoostingSIMDTargetFunc c env iTerm bins =
        BinSumsBoostingInternalFunc k_dynamicClassification k_cItemsPerBitPackDynamic
          env iTerm bins := by
  intro n
  induction n with
  | zero =>
    intro c hn hc
    rw [BinSumsBoostingSIMDTargetFunc, dif_pos (by omega), simdPacking_eq]
  | succ n ih =>
    intro c hn hc
    rw [BinSumsBoostingSIMDTargetFunc]
    by_cases hK : k_cCompilerClassesMax + 1 ≤ c
    · rw [dif_pos hK, simdPacking_eq]
    · rw [dif_neg hK]
      by_cases hm : (c : Int) = env.cRuntimeClasses
      · rw [dif_pos hm, simdPacking_eq]
        obtain ⟨e1, e2⟩ := matched_class_congr c env hc hm
        exact internalFunc_congr _ _ _ _ env iTerm e1 e2 rfl bins
      · rw [dif_neg hm]
        exact ih (c + 1) (by omega) (by omega)

theorem routerSome_eq (simd : Bool) (env : BoosterEnv) (t : Nat) (bins : Nat → Bin)
    (hrt : env.cRuntimeClasses = k_regression ∨ 2 ≤ env.cRuntimeClasses) :
    BinSumsBoostingFunc simd env (some t) bins =
      BinSumsBoostingInternalFunc
        (if 2 ≤ env.cRuntimeClasses then k_dynamicClassification else k_regression)
        k_cItemsPerBitPackDynamic env t bins := by
  rcases hrt with hreg | hcls
  · have hf : IsClassification env.cRuntimeClasses = false := by
      rw [hreg]
      decide
    have hif : ¬(2 ≤ env.cRuntimeClasses) := by
      rw [hreg, k_regression]
      norm_num
    rw [BinSumsBoostingFunc, if_neg hif]
    rcases simd with _ | _
    · simp only [Bool.false_eq_true, if_false, hf]
    · simp only [if_true, hf, Bool.false_eq_true, if_false]
      rw [simdPacking_eq]
  · have ht : IsClassification env.cRuntimeClasses = true :=
      IsClassification_true _ (by omega)
    rw [BinSumsBoostingFunc, if_pos hcls]
    rcases simd with _ | _
    · simp only [Bool.false_eq_true, if_false, ht, if_true]
      exact normalTarget_eq env t bins (k_cCompilerClassesMax + 1) 2 (by omega) (by omega)
    · simp only [if_true, ht]
      exact simdTarget_eq env t bins (k_cCompilerClassesMax + 1) 2 (by omega) (by omega)

theorem routerNone_eq (simd : Bool) (env : BoosterEnv) (bins : Nat → Bin)
    (hrt : env.cRuntimeClasses = k_regression ∨ 2 ≤ env.cRuntimeClasses) :
    BinSumsBoostingFunc simd env none bins =
      Function.update bins 0
        (BinSumsBoostingZeroDimensionsFunc
          (if 2 ≤ env.cRuntimeClasses then k_dynamicClassification else k_regression)
          env (bins 0)) := by
  rcases hrt with hreg | hcls
  · have hf : IsClassification env.cRuntimeClasses = false := by
      rw [hreg]
      decide
    have hif : ¬(2 ≤ env.cRuntimeClasses) := by
      rw [hreg, k_regression]
      norm_num
    rw [BinSumsBoostingFunc, if_neg hif]
    simp only [hf, Bool.false_eq_true, if_false]
  · have ht : IsClassification env.cRuntimeClasses = true :=
      IsClassification_true _ (by omega)
    rw [BinSumsBoostingFunc, if_pos hcls]
    simp only [ht, if_true]
    rw [zeroDimTarget_eq env (bins 0) (k_cCompilerClassesMax + 1) 2 (by omega) (by omega)]

/-- C7: the entry point's selection is exhaustive and follows the stated
decision tree — the no-term sentinel routes to the zero-dimension path
(classification walking the fixed class counts 2..K_max before the dynamic
fallback, regression using the single regression specialization), an
indexed term routes through the pack-width-specialized family when the
vector-instruction flag is set and directly to the dynamic-pack-width
instance otherwise — and the selected specialization always computes
exactly the result of the corresponding fully dynamic instance. -/
theorem C7_dispatch (env : BoosterEnv) (iTerm : Option Nat) (bUseSIMD : Bool)
    (bins : Nat → Bin)
    (hrt : env.cRuntimeClasses = k_regression ∨ 2 ≤ env.cRuntimeClasses)
    (hbp : ∀ t, iTerm = some t →
      1 ≤ env.termBitPack t ∧ env.termBitPack t ≤ k_cBitsForStorageType) :
    BinSumsBoostingFunc bUseSIMD env iTerm bins =
      match iTerm with
      | none =>
        Function.update bins 0
          (BinSumsBoostingZeroDimensionsFunc
            (if 2 ≤ env.cRuntimeClasses then k_dynamicClassification else k_regression)
            env (bins 0))
      | some t =>
        BinSumsBoostingInternalFunc
          (if 2 ≤ env.cRuntimeClasses then k_dynamicClassification else k_regression)
          k_cItemsPerBitPackDynamic env t bins := by
  match iTerm with
  | none => exact routerNone_eq bUseSIMD env bins hrt
  | some t => exact routerSome_eq bUseSIMD env t bins hrt

/-- Concrete example context for the dispatch claims: 3-class
classification, one term with pack width 4. -/
def exEnv : BoosterEnv :=
  { cRuntimeClasses := 3
    cSamples := 5
    occ := fun i => i + 1
    wts := fun i => (i : ℚ) + 1
    gh := fun p => (p : ℚ)
    termBitPack := fun _ => 4
    termInputData := fun _ w => if w = 0 then 0x6C else 0x2 }

/-- Witness for C7: the theorem applied at the concrete context `exEnv`,
term 0, with the vector-instruction flag set. -/
theorem C7_witness :
    (exEnv.cRuntimeClasses = k_regression ∨ 2 ≤ exEnv.cRuntimeClasses) ∧
      BinSumsBoostingFunc true exEnv (some 0) (fun _ => zeroBin) =
        BinSumsBoostingInternalFunc
          (if 2 ≤ exEnv.cRuntimeClasses then k_dynamicClassification else k_regression)
          k_cItemsPerBitPackDynamic exEnv 0 (fun _ => zeroBin) :=
  ⟨Or.inr (by norm_num [exEnv]),
    C7_dispatch exEnv (some 0) true (fun _ => zeroBin)
      (Or.inr (by norm_num [exEnv])) (fun t ht => by cases ht; exact ⟨by decide, by decide⟩)⟩

/-- C9: the kernel is deterministic — two calls given identical
training-set arrays, inner-bag arrays, term parameters, class count and
identical initial bin-buffer contents produce identical buffers, whatever
the value of the vector-instruction flag; the output depends on nothing
else. -/
theorem C9_deterministic (env1 env2 : BoosterEnv) (iTerm : Option Nat)
    (simd1 simd2 : Bool) (bins1 bins2 : Nat → Bin)
    (hrt : env1.cRuntimeClasses = k_regression ∨ 2 ≤ env1.cRuntimeClasses)
    (h1 : env1.cRuntimeClasses = env2.cRuntimeClasses)
    (h2 : env1.cSamples = env2.cSamples)
    (h3 : ∀ i, env1.occ i = env2.occ i)
    (h4 : ∀ i, env1.wts i = env2.wts i)
    (h5 : ∀ p, env1.gh p = env2.gh p)
    (h6 : ∀ t, env1.termBitPack t = env2.termBitPack t)
    (h7 : ∀ t w, env1.termInputData t w = env2.termInputData t w)
    (h8 : ∀ j, bins1 j = bins2 j) :
    BinSumsBoostingFunc simd1 env1 iTerm bins1 =
      BinSumsBoostingFunc simd2 env2 iTerm bins2 := by
  obtain ⟨rt1, n1, o1, w1, g1, tb1, ti1⟩ := env1
  obtain ⟨rt2, n2, o2, w2, g2, tb2, ti2⟩ := env2
  have ho : o1 = o2 := funext h3
  have hw : w1 = w2 := funext h4
  have hg : g1 = g2 := funext h5
  have htb : tb1 = tb2 := funext h6
  have hti : ti1 = ti2 := funext fun t => funext fun w => h7 t w
  have hb : bins1 = bins2 := funext h8
  cases h1
  cases h2
  cases ho
  cases hw
  cases hg
  cases htb
  cases hti
  cases hb
  match iTerm with
  | none => rfl
  | some t =>
    rw [routerSome_eq simd1 _ t bins1 hrt, routerSome_eq simd2 _ t bins1 hrt]

/-- Witness for C9: the theorem applied at `exEnv` with the two flag
values, identical arrays and identical zeroed buffers. -/
theorem C9_witness :
    (exEnv.cRuntimeClasses = k_regression ∨ 2 ≤ exEnv.cRuntimeClasses) ∧
      BinSumsBoostingFunc true exEnv (some 0) (fun _ => zeroBin) =
        BinSumsBoostingFunc false exEnv (some 0) (fun _ => zeroBin) :=
  ⟨Or.inr (by norm_num [exEnv]),
    C9_deterministic exEnv exEnv (some 0) true false (fun _ => zeroBin) (fun _ => zeroBin)
      (Or.inr (by norm_num [exEnv])) rfl rfl (fun _ => rfl) (fun _ => rfl) (fun _ => rfl)
      (fun _ => rfl) (fun _ _ => rfl) (fun _ => rfl)⟩

end EbmBinSums
